import Mathlib

/-!
Verification of the landmark-connectivity scripts
(`src/scripts/landmark_connectivity.py` and `src/scripts/landmark_counter.py`).

The scripts scan the range measurements of an already-parsed PyFG dataset,
tally per-robot sighting counts for each landmark, optionally assign each
landmark to the robot observing it most often (breaking full ties with a
call to `random.random()`), and rewrite landmark symbols in the dataset text
to embed the owner.  We embed the pure core of each function: dictionaries
become ordered association lists (Python dicts preserve insertion order),
runtime errors (`AssertionError`, `KeyError`, `IndexError`) become
`Except String`, and `random.random()` becomes a stream of rationals in
`[0, 1)` consumed one value per tie.
-/

namespace LandmarkConnectivity

/-- Modelled from the spec: the external `py_factor_graph` helper
`get_robot_idx_from_char` maps a robot identifier character to its index
(`'A'` ↦ 0, `'B'` ↦ 1, …). -/
def get_robot_idx_from_char (c : Char) : Nat := c.toNat - 65

/-- Modelled from the spec: the external `py_factor_graph` helper
`get_robot_char_from_number` maps a robot index to its identifier character
(0 ↦ `'A'`, 1 ↦ `'B'`, …). -/
def get_robot_char_from_number (n : Nat) : Char := Char.ofNat (65 + n)

/-- Modelled from the spec: a range measurement produced by the external
PyFG parser is a pair (observer identifier, target identifier)
(`measure.association`).  The scripts read only the observer's leading
character (`robot[0]`), which determines the robot index, so the observer is
kept as that character; the target is the full symbol (a landmark symbol
such as `"L3"`, or another robot's identifier). -/
structure Measurement where
  observer : Char
  target : String
  deriving Repr, DecidableEq

/-- Modelled from the spec: the parsed dataset fields that the scripts read
(`pyfg_data.num_robots`, `pyfg_data.num_landmarks`,
`pyfg_data.range_measurements`). -/
structure FactorGraphData where
  num_robots : Nat
  num_landmarks : Nat
  range_measurements : List Measurement
  deriving Repr, DecidableEq

/-- The frequency table `robot_landmark_frequency : Dict[str, List[int]]`,
as an insertion-ordered association list. -/
abbrev FreqMap := List (String × List Nat)

/-- Python dict read `f[k]`: the value at the first entry with key `k`,
`none` meaning a `KeyError`. -/
def lookupFreq (f : FreqMap) (k : String) : Option (List Nat) :=
  (f.find? (fun p => p.1 = k)).map Prod.snd

/-- Python dict write `f[k] = v` on an existing key `k`
(the scripts only ever update keys created at initialization). -/
def setFreq (f : FreqMap) (k : String) (v : List Nat) : FreqMap :=
  f.map (fun p => if p.1 = k then (p.1, v) else p)

/-- The initialization loop of `landmark_counter` (lines 94–96 of
`landmark_connectivity.py`, lines 52–54 of `landmark_counter.py`):
`robot_landmark_frequency[f"L{i}"] = [0] * num_robots` for each
`i < num_landmarks`. -/
def freqInit (num_landmarks num_robots : Nat) : FreqMap :=
  (List.range num_landmarks).map
    (fun i => ("L" ++ toString i, List.replicate num_robots 0))

/-- The shared increment
`robot_landmark_frequency[landmark][get_robot_idx_from_char(robot[0])] += 1`:
`KeyError` when the landmark is not a key, `IndexError` when the robot index
is out of range. -/
def incrementFor (f : FreqMap) (target : String) (observer : Char) :
    Except String FreqMap :=
  let i := get_robot_idx_from_char observer
  match lookupFreq f target with
  | none => .error "KeyError"
  | some v =>
    if h : i < v.length then
      .ok (setFreq f target (v.set i (v.get ⟨i, h⟩ + 1)))
    else
      .error "IndexError: list index out of range"

/-- One iteration of the counting loop of `landmark_connectivity.py`
(lines 99–108): skip the measurement when `measure.association[1][0] != "L"`
(an `IndexError` when the target is empty), otherwise increment. -/
def countStepConn (f : FreqMap) (m : Measurement) : Except String FreqMap :=
  match m.target.toList with
  | [] => .error "IndexError: string index out of range"
  | c :: _ => if c = 'L' then incrementFor f m.target m.observer else .ok f

/-- One iteration of the counting loop of `landmark_counter.py`
(lines 57–62): increment unconditionally, with no skip for inter-robot
measurements. -/
def countStepCounter (f : FreqMap) (m : Measurement) : Except String FreqMap :=
  incrementFor f m.target m.observer

/-- The counting loop of `landmark_connectivity.py` over the range
measurements. -/
def countLoopConn (f : FreqMap) : List Measurement → Except String FreqMap
  | [] => .ok f
  | m :: ms =>
    match countStepConn f m with
    | .error e => .error e
    | .ok f2 => countLoopConn f2 ms

/-- The counting loop of `landmark_counter.py` over the range
measurements. -/
def countLoopCounter (f : FreqMap) : List Measurement → Except String FreqMap
  | [] => .ok f
  | m :: ms =>
    match countStepCounter f m with
    | .error e => .error e
    | .ok f2 => countLoopCounter f2 ms

/-- The message passed to `logger.critical` by the `.pyfg` assertions. -/
def criticalMsg : String := "Dataset must be in PyFG format."

/-- Python's `str.endswith`, on the character lists of the strings: the
second string's characters form a suffix of the first string's. -/
def endswith (s suffix : String) : Bool :=
  suffix.toList.isSuffixOf s.toList

/-- The validation `assert pyfg_filepath.endswith(".pyfg")` shared by
`landmark_counter`, `assign_ownership_to_landmarks` and
`reindex_landmarks`: an `AssertionError` after logging `criticalMsg` when
the filepath does not end in `.pyfg`. -/
def checkPyfgExtension (fp : String) : Except String Unit :=
  if endswith fp ".pyfg" then .ok () else .error criticalMsg

/-- `landmark_counter` of `landmark_connectivity.py` (lines 70–116):
validate the extension, initialize the frequency table, run the counting
loop, and return the table (the CSV write is `append_frequency_to_csv` of
the returned table). -/
def landmark_counter (fp : String) (pyfg_data : FactorGraphData) :
    Except String FreqMap :=
  match checkPyfgExtension fp with
  | .error e => .error e
  | .ok () =>
      countLoopConn (freqInit pyfg_data.num_landmarks pyfg_data.num_robots)
        pyfg_data.range_measurements

/-- The header line written by `append_frequency_to_csv` (lines 29–32):
`landmark_symbol` followed by `,<robot>_count` per robot. -/
def csvHeader (num_robots : Nat) : String :=
  "landmark_symbol" ++
    String.join ((List.range num_robots).map
      (fun i => "," ++ String.singleton (get_robot_char_from_number i) ++ "_count"))

/-- One data row written by `append_frequency_to_csv` (lines 34–38): the
landmark symbol followed by `,<count>` per robot. -/
def csvRow (landmark : String) (freq : List Nat) : String :=
  landmark ++ String.join (freq.map (fun count => "," ++ toString count))

/-- `append_frequency_to_csv` (lines 18–38), as the list of lines of the
written CSV file: the header line, then one row per entry of the frequency
table. -/
def append_frequency_to_csv (frequency : FreqMap) (num_robots : Nat) :
    List String :=
  csvHeader num_robots :: frequency.map (fun p => csvRow p.1 p.2)

/-- Python's `all(x == freq[0] for x in freq)` (line 150): every entry
equals the first one (`freq[0]` is only evaluated on nonempty lists, the
all-zero case having been skipped). -/
def isTie (freq : List Nat) : Bool :=
  freq.all (fun x => x = freq.headD 0)

/-- Python's `max(freq)` on the nonempty lists this branch receives. -/
def listMax (freq : List Nat) : Nat := freq.foldl Nat.max 0

/-- The per-landmark decision of `assign_ownership_to_landmarks`
(lines 144–157), given the value `r` returned by `random.random()` were a
tie to occur: `none` when no robot sees the landmark; on a full tie the
robot `math.floor(random.random() * len(freq))`; otherwise the robot at
`freq.index(max(freq))`. -/
def ownerChoice (r : ℚ) (freq : List Nat) : Option Char :=
  if freq.sum = 0 then none
  else if isTie freq then
    some (get_robot_char_from_number
      (Int.toNat ⌊r * (freq.length : ℚ)⌋))
  else
    some (get_robot_char_from_number (freq.indexOf (listMax freq)))

/-- Whether processing `freq` consumes a call to `random.random()`
(the tie branch, lines 150–153). -/
def usesRandom (freq : List Nat) : Bool :=
  decide (freq.sum ≠ 0) && isTie freq

/-- The ownership loop of `assign_ownership_to_landmarks` (lines 143–157):
builds `landmark_owner` in iteration order, drawing `rnd k` for the `k`-th
call to `random.random()`. -/
def assignOwnershipFrom (rnd : Nat → ℚ) : Nat → FreqMap → List (String × Char)
  | _, [] => []
  | k, (lm, freq) :: rest =>
    match ownerChoice (rnd k) freq with
    | none => assignOwnershipFrom rnd (if usesRandom freq then k + 1 else k) rest
    | some c =>
      (lm, c) :: assignOwnershipFrom rnd (if usesRandom freq then k + 1 else k) rest

/-- One line of `reindex_landmarks` (lines 64–66): for each
`(landmark, owner)` of the ownership mapping in order, replace every
occurrence of `landmark` by `f"L{owner}{landmark[1:]}"`. -/
def reindex_line (landmark_owner : List (String × Char)) (line : String) :
    String :=
  landmark_owner.foldl
    (fun l p =>
      l.replace p.1 ("L" ++ String.singleton p.2 ++ p.1.drop 1))
    line

/-- The rewrite applied by `reindex_landmarks` to the file content, as the
list of lines of the output file (line 63–67: every input line is rewritten
and written out). -/
def reindex_file (landmark_owner : List (String × Char))
    (lines : List String) : List String :=
  lines.map (reindex_line landmark_owner)

/-- `reindex_landmarks` (lines 40–67): validate the extension, then rewrite
every line of the input file. -/
def reindex_landmarks (fp : String) (landmark_owner : List (String × Char))
    (lines : List String) : Except String (List String) :=
  match checkPyfgExtension fp with
  | .error e => .error e
  | .ok () => .ok (reindex_file landmark_owner lines)

/-- `assign_ownership_to_landmarks` (lines 118–159): validate the
extension, build the ownership mapping (consuming random draws from `rnd`),
and rewrite the dataset text via `reindex_landmarks`; returns the mapping
together with the rewritten lines. -/
def assign_ownership_to_landmarks (rnd : Nat → ℚ) (fp : String)
    (robot_landmark_frequency : FreqMap) (lines : List String) :
    Except String (List (String × Char) × List String) :=
  match checkPyfgExtension fp with
  | .error e => .error e
  | .ok () =>
    let owner := assignOwnershipFrom rnd 0 robot_landmark_frequency
    .ok (owner, reindex_file owner lines)

/-! Basic lemmas about the dictionary embedding -/

/-- Every frequency table the scripts build keeps entries with equal keys
equal; `freqInit` produces distinct keys, and this weaker invariant is all
the proofs need. -/
def Coherent (f : FreqMap) : Prop :=
  ∀ p ∈ f, ∀ q ∈ f, p.1 = q.1 → p.2 = q.2

theorem lookupFreq_mem {f : FreqMap} {k : String} {v : List Nat}
    (h : lookupFreq f k = some v) : (k, v) ∈ f := by
  unfold lookupFreq at h
  cases hf : f.find? (fun p => p.1 = k) with
  | none => rw [hf] at h; simp at h
  | some p =>
    rw [hf] at h
    simp at h
    have hp := List.find?_some hf
    have hm := List.mem_of_find?_eq_some hf
    simp at hp
    rw [← h, ← hp]
    exact hm

theorem lookupFreq_cons (q : String × List Nat) (l : FreqMap) (k : String) :
    lookupFreq (q :: l) k = if q.1 = k then some q.2 else lookupFreq l k := by
  by_cases h : q.1 = k <;> simp [lookupFreq, List.find?_cons, h]

theorem setFreq_cons (q : String × List Nat) (l : FreqMap) (k : String)
    (w : List Nat) :
    setFreq (q :: l) k w = (if q.1 = k then (q.1, w) else q) :: setFreq l k w := by
  by_cases h : q.1 = k <;> simp [setFreq, h]

theorem lookupFreq_isSome_iff {f : FreqMap} {k : String} :
    (lookupFreq f k).isSome ↔ k ∈ f.map Prod.fst := by
  induction f with
  | nil => simp [lookupFreq]
  | cons q rest ih =>
    rw [lookupFreq_cons]
    by_cases h : q.1 = k
    · simp [h]
    · simp only [h, if_false, ih, List.map_cons, List.mem_cons]
      constructor
      · intro hh; exact Or.inr hh
      · rintro (hh | hh)
        · exact absurd hh.symm h
        · exact hh

theorem mem_lookupFreq {f : FreqMap} {k : String} {v : List Nat}
    (hc : Coherent f) (h : (k, v) ∈ f) : lookupFreq f k = some v := by
  have hs : (lookupFreq f k).isSome := by
    rw [lookupFreq_isSome_iff]
    exact List.mem_map.mpr ⟨(k, v), h, rfl⟩
  cases hv' : lookupFreq f k with
  | none => rw [hv'] at hs; simp at hs
  | some v' =>
    have hmem := lookupFreq_mem hv'
    have := hc (k, v') hmem (k, v) h rfl
    simp at this
    rw [this]

theorem keys_setFreq (f : FreqMap) (k : String) (w : List Nat) :
    (setFreq f k w).map Prod.fst = f.map Prod.fst := by
  unfold setFreq
  rw [List.map_map]
  apply List.map_congr_left
  intro p _
  by_cases h : p.1 = k <;> simp [h]

theorem lookupFreq_setFreq_self {f : FreqMap} {k : String} {w : List Nat}
    (h : (lookupFreq f k).isSome) :
    lookupFreq (setFreq f k w) k = some w := by
  induction f with
  | nil => simp [lookupFreq] at h
  | cons p rest ih =>
    rw [setFreq_cons, lookupFreq_cons]
    by_cases hk : p.1 = k
    · simp [hk]
    · rw [lookupFreq_cons] at h
      simp only [hk, if_false] at h ⊢
      exact ih h

theorem lookupFreq_setFreq_ne {f : FreqMap} {k k' : String} {w : List Nat}
    (h : k' ≠ k) : lookupFreq (setFreq f k w) k' = lookupFreq f k' := by
  induction f with
  | nil => simp [lookupFreq, setFreq]
  | cons p rest ih =>
    rw [setFreq_cons, lookupFreq_cons, lookupFreq_cons]
    by_cases hk : p.1 = k
    · rw [if_pos hk]
      have hne : ¬ p.1 = k' := fun hh => h (hh.symm.trans hk)
      rw [if_neg hne, if_neg hne]
      exact ih
    · rw [if_neg hk]
      by_cases hk' : p.1 = k'
      · rw [if_pos hk', if_pos hk']
      · rw [if_neg hk', if_neg hk']
        exact ih

theorem setFreq_entry_fst (p0 : String × List Nat) (k : String) (w : List Nat) :
    ((if p0.1 = k then (p0.1, w) else p0) : String × List Nat).1 = p0.1 := by
  by_cases h : p0.1 = k <;> simp [h]

theorem setFreq_entry_of_ne (p0 : String × List Nat) (k : String)
    (w : List Nat) (h : ¬ p0.1 = k) :
    (if p0.1 = k then (p0.1, w) else p0) = p0 := if_neg h

theorem setFreq_entry_snd_of_eq (p0 : String × List Nat) (k : String)
    (w : List Nat) (h : p0.1 = k) :
    ((if p0.1 = k then (p0.1, w) else p0) : String × List Nat).2 = w := by
  simp [h]

theorem coherent_setFreq {f : FreqMap} {k : String} {w : List Nat}
    (hc : Coherent f) : Coherent (setFreq f k w) := by
  intro p hp q hq hpq
  rcases List.mem_map.mp hp with ⟨p0, hp0, hpe⟩
  rcases List.mem_map.mp hq with ⟨q0, hq0, hqe⟩
  have hp1 : p.1 = p0.1 := by rw [← hpe]; exact setFreq_entry_fst p0 k w
  have hq1 : q.1 = q0.1 := by rw [← hqe]; exact setFreq_entry_fst q0 k w
  by_cases hpk : p0.1 = k <;> by_cases hqk : q0.1 = k
  · have hpw : p.2 = w := by rw [← hpe]; exact setFreq_entry_snd_of_eq p0 k w hpk
    have hqw : q.2 = w := by rw [← hqe]; exact setFreq_entry_snd_of_eq q0 k w hqk
    rw [hpw, hqw]
  · exact absurd (((hq1.symm.trans hpq.symm).trans hp1).trans hpk) hqk
  · exact absurd (((hp1.symm.trans hpq).trans hq1).trans hqk) hpk
  · have hpp : p = p0 := by rw [← hpe]; exact setFreq_entry_of_ne p0 k w hpk
    have hqq : q = q0 := by rw [← hqe]; exact setFreq_entry_of_ne q0 k w hqk
    rw [hpp, hqq]
    rw [hpp, hqq] at hpq
    exact hc p0 hp0 q0 hq0 hpq

theorem coherent_freqInit (nL nR : Nat) : Coherent (freqInit nL nR) := by
  intro p hp q hq _
  unfold freqInit at hp hq
  rcases List.mem_map.mp hp with ⟨i, _, hi⟩
  rcases List.mem_map.mp hq with ⟨j, _, hj⟩
  rw [← hi, ← hj]

theorem sum_set_succ (l : List Nat) (i : Nat) (h : i < l.length) :
    (l.set i (l.get ⟨i, h⟩ + 1)).sum = l.sum + 1 := by
  induction l generalizing i with
  | nil => simp at h
  | cons a l ih =>
    cases i with
    | zero =>
      simp only [List.get, List.set, List.sum_cons]
      omega
    | succ i =>
      have h' : i < l.length := by simpa using h
      simp only [List.get, List.set, List.sum_cons]
      rw [ih i h']
      omega

/-! Lemmas about the counting loops -/

theorem vecLens_setFreq {f : FreqMap} {n : Nat} {k : String} {w : List Nat}
    (hw : w.length = n) (hf : ∀ p ∈ f, p.2.length = n) :
    ∀ p ∈ setFreq f k w, p.2.length = n := by
  intro p hp
  rcases List.mem_map.mp hp with ⟨p0, hp0, hpe⟩
  by_cases hk : p0.1 = k
  · have h2 : p.2 = w := by rw [← hpe]; exact setFreq_entry_snd_of_eq p0 k w hk
    rw [h2]; exact hw
  · have h2 : p = p0 := by rw [← hpe]; exact setFreq_entry_of_ne p0 k w hk
    rw [h2]; exact hf p0 hp0

theorem incrementFor_ok {f f1 : FreqMap} {target : String} {obs : Char}
    (h : incrementFor f target obs = .ok f1) :
    ∃ v, ∃ hi : get_robot_idx_from_char obs < v.length,
      lookupFreq f target = some v ∧
      f1 = setFreq f target
        (v.set (get_robot_idx_from_char obs)
          (v.get ⟨get_robot_idx_from_char obs, hi⟩ + 1)) := by
  unfold incrementFor at h
  cases hv : lookupFreq f target with
  | none => rw [hv] at h; simp at h
  | some v =>
    rw [hv] at h
    simp only at h
    split at h
    · rename_i hi
      simp only [Except.ok.injEq] at h
      exact ⟨v, hi, rfl, h.symm⟩
    · simp at h

theorem countStepConn_ok_cases {f f1 : FreqMap} {m : Measurement}
    (h : countStepConn f m = .ok f1) :
    ((∃ c cs, m.target.toList = c :: cs ∧ c ≠ 'L') ∧ f1 = f) ∨
    (m.target.toList.head? = some 'L' ∧
      ∃ v, ∃ hi : get_robot_idx_from_char m.observer < v.length,
        lookupFreq f m.target = some v ∧
        f1 = setFreq f m.target
          (v.set (get_robot_idx_from_char m.observer)
            (v.get ⟨get_robot_idx_from_char m.observer, hi⟩ + 1))) := by
  unfold countStepConn at h
  cases ht : m.target.toList with
  | nil => rw [ht] at h; simp at h
  | cons c cs =>
    rw [ht] at h
    simp only at h
    by_cases hc : c = 'L'
    · rw [if_pos hc] at h
      rcases incrementFor_ok h with ⟨v, hi, hv, he⟩
      exact Or.inr ⟨by simp [hc], v, hi, hv, he⟩
    · rw [if_neg hc] at h
      simp only [Except.ok.injEq] at h
      exact Or.inl ⟨⟨c, cs, rfl, hc⟩, h.symm⟩

theorem countStepConn_keys {f f1 : FreqMap} {m : Measurement}
    (h : countStepConn f m = .ok f1) :
    f1.map Prod.fst = f.map Prod.fst := by
  rcases countStepConn_ok_cases h with ⟨_, rfl⟩ | ⟨_, v, hi, hv, rfl⟩
  · rfl
  · exact keys_setFreq ..

theorem countLoopConn_keys {ms : List Measurement} : ∀ {f0 f : FreqMap},
    countLoopConn f0 ms = .ok f → f.map Prod.fst = f0.map Prod.fst := by
  induction ms with
  | nil =>
    intro f0 f h
    simp only [countLoopConn, Except.ok.injEq] at h
    rw [← h]
  | cons m ms ih =>
    intro f0 f h
    unfold countLoopConn at h
    cases hs : countStepConn f0 m with
    | error e => rw [hs] at h; simp at h
    | ok f1 =>
      rw [hs] at h
      exact (ih h).trans (countStepConn_keys hs)

theorem countLoopConn_coherent {ms : List Measurement} : ∀ {f0 f : FreqMap},
    Coherent f0 → countLoopConn f0 ms = .ok f → Coherent f := by
  induction ms with
  | nil =>
    intro f0 f hc h
    simp only [countLoopConn, Except.ok.injEq] at h
    rw [← h]; exact hc
  | cons m ms ih =>
    intro f0 f hc h
    unfold countLoopConn at h
    cases hs : countStepConn f0 m with
    | error e => rw [hs] at h; simp at h
    | ok f1 =>
      rw [hs] at h
      have hc1 : Coherent f1 := by
        rcases countStepConn_ok_cases hs with ⟨_, rfl⟩ | ⟨_, v, hi, hv, rfl⟩
        · exact hc
        · exact coherent_setFreq hc
      exact ih hc1 h

theorem countLoopConn_vecLens {ms : List Measurement} {n : Nat} :
    ∀ {f0 f : FreqMap},
    (∀ p ∈ f0, p.2.length = n) → countLoopConn f0 ms = .ok f →
    ∀ p ∈ f, p.2.length = n := by
  induction ms with
  | nil =>
    intro f0 f hn h
    simp only [countLoopConn, Except.ok.injEq] at h
    rw [← h]; exact hn
  | cons m ms ih =>
    intro f0 f hn h
    unfold countLoopConn at h
    cases hs : countStepConn f0 m with
    | error e => rw [hs] at h; simp at h
    | ok f1 =>
      rw [hs] at h
      have hn1 : ∀ p ∈ f1, p.2.length = n := by
        rcases countStepConn_ok_cases hs with ⟨_, rfl⟩ | ⟨_, v, hi, hv, rfl⟩
        · exact hn
        · refine vecLens_setFreq ?_ hn
          rw [List.length_set]
          exact hn (m.target, v) (lookupFreq_mem hv)
      exact ih hn1 h

/-- Keys whose symbol starts with `'L'` stay so through the loop. -/
theorem keysStartL_of_keys_eq {f0 f1 : FreqMap}
    (hk : f1.map Prod.fst = f0.map Prod.fst)
    (hL : ∀ p ∈ f0, p.1.toList.head? = some 'L') :
    ∀ p ∈ f1, p.1.toList.head? = some 'L' := by
  intro p hp
  have hmem : p.1 ∈ f1.map Prod.fst := List.mem_map.mpr ⟨p, hp, rfl⟩
  rw [hk] at hmem
  rcases List.mem_map.mp hmem with ⟨p0, hp0, he⟩
  rw [← he]
  exact hL p0 hp0

/-- The central counting invariant: a successful run of the loop of
`landmark_connectivity.py` adds to each key's vector sum exactly the number
of measurements targeting that key. -/
theorem countLoopConn_sum {ms : List Measurement} : ∀ {f0 f : FreqMap},
    (∀ p ∈ f0, p.1.toList.head? = some 'L') →
    countLoopConn f0 ms = .ok f →
    ∀ k v0 v, lookupFreq f0 k = some v0 → lookupFreq f k = some v →
    v.sum = v0.sum + ms.countP (fun m => m.target = k) := by
  induction ms with
  | nil =>
    intro f0 f _ h k v0 v h0 h1
    simp only [countLoopConn, Except.ok.injEq] at h
    rw [← h] at h1
    rw [h0] at h1
    simp only [Option.some.injEq] at h1
    rw [← h1]
    simp
  | cons m ms ih =>
    intro f0 f hL h k v0 v h0 h1
    unfold countLoopConn at h
    cases hs : countStepConn f0 m with
    | error e => rw [hs] at h; simp at h
    | ok f1 =>
      rw [hs] at h
      have hL1 : ∀ p ∈ f1, p.1.toList.head? = some 'L' :=
        keysStartL_of_keys_eq (countStepConn_keys hs) hL
      have hkL : k.toList.head? = some 'L' := hL (k, v0) (lookupFreq_mem h0)
      rcases countStepConn_ok_cases hs with ⟨⟨c, cs, ht, hc⟩, rfl⟩ |
        ⟨hhd, w0, hi, hw, rfl⟩
      · have hne : m.target ≠ k := by
          intro he
          rw [he] at ht
          rw [ht] at hkL
          simp only [List.head?_cons, Option.some.injEq] at hkL
          exact hc hkL
        rw [List.countP_cons]
        simp only [hne, decide_eq_true_eq, if_false, decide_False]
        simpa using ih hL1 h k v0 v h0 h1
      · by_cases hk : m.target = k
        · subst hk
          have hv0 : v0 = w0 := by
            rw [h0] at hw
            exact Option.some.inj hw
          subst hv0
          have h1' : lookupFreq (setFreq f0 m.target
              (v0.set (get_robot_idx_from_char m.observer)
                (v0.get ⟨get_robot_idx_from_char m.observer, hi⟩ + 1)))
              m.target = some (v0.set (get_robot_idx_from_char m.observer)
                (v0.get ⟨get_robot_idx_from_char m.observer, hi⟩ + 1)) :=
            lookupFreq_setFreq_self (by rw [hw]; rfl)
          have := ih hL1 h m.target _ v h1' h1
          rw [this, sum_set_succ v0 _ hi, List.countP_cons]
          simp only [decide_True, if_true]
          omega
        · have h1' : lookupFreq (setFreq f0 m.target
              (w0.set (get_robot_idx_from_char m.observer)
                (w0.get ⟨get_robot_idx_from_char m.observer, hi⟩ + 1)))
              k = some v0 := by
            rw [lookupFreq_setFreq_ne (fun he => hk he.symm)]
            exact h0
          have := ih hL1 h k v0 v h1' h1
          rw [this, List.countP_cons]
          simp [hk]

theorem countStepConn_error_msgs {f : FreqMap} {m : Measurement} {e : String}
    (h : countStepConn f m = .error e) :
    e = "IndexError: string index out of range" ∨ e = "KeyError" ∨
      e = "IndexError: list index out of range" := by
  unfold countStepConn at h
  cases ht : m.target.toList with
  | nil =>
    rw [ht] at h
    simp only [Except.error.injEq] at h
    exact Or.inl h.symm
  | cons c cs =>
    rw [ht] at h
    simp only at h
    by_cases hc : c = 'L'
    · rw [if_pos hc] at h
      unfold incrementFor at h
      cases hv : lookupFreq f m.target with
      | none =>
        rw [hv] at h
        simp only [Except.error.injEq] at h
        exact Or.inr (Or.inl h.symm)
      | some v =>
        rw [hv] at h
        simp only at h
        split at h
        · simp at h
        · simp only [Except.error.injEq] at h
          exact Or.inr (Or.inr h.symm)
    · rw [if_neg hc] at h
      simp at h

theorem countLoopConn_error_msgs {ms : List Measurement} :
    ∀ {f0 : FreqMap} {e : String}, countLoopConn f0 ms = .error e →
    e = "IndexError: string index out of range" ∨ e = "KeyError" ∨
      e = "IndexError: list index out of range" := by
  induction ms with
  | nil => intro f0 e h; simp [countLoopConn] at h
  | cons m ms ih =>
    intro f0 e h
    unfold countLoopConn at h
    cases hs : countStepConn f0 m with
    | error e' =>
      rw [hs] at h
      simp only [Except.error.injEq] at h
      rw [← h]
      exact countStepConn_error_msgs hs
    | ok f1 =>
      rw [hs] at h
      exact ih h

/-! Facts about the initialized frequency table -/

theorem freqInit_keys (nL nR : Nat) :
    (freqInit nL nR).map Prod.fst =
      (List.range nL).map (fun i => "L" ++ toString i) := by
  simp [freqInit, List.map_map]

theorem freqInit_vals (nL nR : Nat) :
    ∀ p ∈ freqInit nL nR, p.2 = List.replicate nR 0 := by
  intro p hp
  rcases List.mem_map.mp hp with ⟨i, _, rfl⟩
  rfl

theorem freqInit_lens (nL nR : Nat) :
    ∀ p ∈ freqInit nL nR, p.2.length = nR := by
  intro p hp
  rw [freqInit_vals nL nR p hp]
  exact List.length_replicate ..

theorem freqInit_keysStartL (nL nR : Nat) :
    ∀ p ∈ freqInit nL nR, p.1.toList.head? = some 'L' := by
  intro p hp
  rcases List.mem_map.mp hp with ⟨i, _, rfl⟩
  have : ("L" ++ toString i).toList = 'L' :: (toString i).toList := by
    simp [String.toList]
  rw [this]
  rfl

theorem freqInit_length (nL nR : Nat) : (freqInit nL nR).length = nL := by
  simp [freqInit]

/-! The claims -/

/-- C1: for every parsed dataset, in the frequency mapping returned by
`landmark_counter`, the sum of each landmark's frequency vector equals the
number of range measurements whose target is that landmark. -/
theorem C1_frequency_sum (fp : String) (d : FactorGraphData) (f : FreqMap)
    (h : landmark_counter fp d = .ok f) (k : String) (v : List Nat)
    (hk : lookupFreq f k = some v) :
    v.sum = d.range_measurements.countP (fun m => m.target = k) := by
  unfold landmark_counter at h
  cases hchk : checkPyfgExtension fp with
  | error e => rw [hchk] at h; simp at h
  | ok u =>
    cases u
    rw [hchk] at h
    simp only at h
    have hkeys := countLoopConn_keys h
    have hsome : (lookupFreq f k).isSome := by rw [hk]; rfl
    have hkmem := lookupFreq_isSome_iff.mp hsome
    rw [hkeys] at hkmem
    have hsome0 := lookupFreq_isSome_iff.mpr hkmem
    obtain ⟨v0, hv0⟩ := Option.isSome_iff_exists.mp hsome0
    have hv0val : v0 = List.replicate d.num_robots 0 :=
      freqInit_vals _ _ _ (lookupFreq_mem hv0)
    have hsum := countLoopConn_sum (freqInit_keysStartL _ _) h k v0 v hv0 hk
    rw [hsum, hv0val]
    simp

/-- Witness for C1 at a concrete dataset: two robots, one landmark, two
measurements targeting `L0` and one inter-robot measurement. -/
theorem C1_frequency_sum_witness :
    ([1, 1] : List Nat).sum =
      ([⟨'A', "L0"⟩, ⟨'B', "L0"⟩, ⟨'A', "B"⟩] : List Measurement).countP
        (fun m => m.target = "L0") :=
  C1_frequency_sum "d.pyfg"
    ⟨2, 1, [⟨'A', "L0"⟩, ⟨'B', "L0"⟩, ⟨'A', "B"⟩]⟩
    [("L0", [1, 1])] (by rfl) "L0" [1, 1] (by rfl)

/-- C5: measurements whose target does not begin with `'L'` are skipped by
the loop of `landmark_connectivity.py` and leave the frequency table
unchanged; a landmark-targeted measurement increments exactly the count at
the observing robot's index. -/
theorem C5_skip_inter_robot (m : Measurement) (f : FreqMap) (c : Char)
    (cs : List Char) (ht : m.target.toList = c :: cs) :
    (c ≠ 'L' → countStepConn f m = .ok f) ∧
    (c = 'L' → ∀ v, lookupFreq f m.target = some v →
      ∀ hi : get_robot_idx_from_char m.observer < v.length,
      countStepConn f m = .ok (setFreq f m.target
        (v.set (get_robot_idx_from_char m.observer)
          (v.get ⟨get_robot_idx_from_char m.observer, hi⟩ + 1)))) := by
  constructor
  · intro hc
    unfold countStepConn
    rw [ht]
    simp [hc]
  · intro hc v hv hi
    unfold countStepConn
    rw [ht]
    simp only
    rw [if_pos hc]
    unfold incrementFor
    rw [hv]
    simp only
    rw [dif_pos hi]

/-- Witness for C5: an inter-robot measurement is a no-op, a landmark
measurement increments the observer's slot. -/
theorem C5_skip_inter_robot_witness :
    countStepConn [("L0", [0, 2])] ⟨'A', "B"⟩ = .ok [("L0", [0, 2])] ∧
    countStepConn [("L0", [0, 2])] ⟨'B', "L0"⟩ = .ok [("L0", [0, 3])] := by
  have h1 := (C5_skip_inter_robot ⟨'A', "B"⟩ [("L0", [0, 2])] 'B' [] rfl).1
    (by decide)
  have h2 := (C5_skip_inter_robot ⟨'B', "L0"⟩ [("L0", [0, 2])] 'L' ['0'] rfl).2
    rfl [0, 2] rfl (by decide)
  exact ⟨h1, by rw [h2]; rfl⟩

/-- C6: with an empty ownership mapping, `reindex_landmarks` rewrites every
line to itself, so the output file content equals the input's. -/
theorem C6_reindex_empty_noop (fp : String) (lines : List String)
    (h : endswith fp ".pyfg" = true) :
    (∀ line, reindex_line [] line = line) ∧
    reindex_landmarks fp [] lines = .ok lines := by
  constructor
  · intro line; rfl
  · unfold reindex_landmarks checkPyfgExtension
    simp only [h, if_true]
    unfold reindex_file
    rw [show reindex_line [] = id from rfl, List.map_id]

/-- Witness for C6 at a concrete file. -/
theorem C6_reindex_empty_noop_witness :
    reindex_landmarks "x.pyfg" []
      ["VERTEX A0 0 0", "RANGE A0 L3 1.5"] =
      .ok ["VERTEX A0 0 0", "RANGE A0 L3 1.5"] :=
  (C6_reindex_empty_noop "x.pyfg" ["VERTEX A0 0 0", "RANGE A0 L3 1.5"]
    (by decide)).2

/-- C10 fails as stated: on a dataset with an inter-robot measurement the
loop of `landmark_counter.py` raises `KeyError` while the loop of
`landmark_connectivity.py` skips the measurement and succeeds. -/
theorem C10_counterexample :
    countLoopCounter (freqInit 1 1) [⟨'A', "B"⟩] ≠
      countLoopConn (freqInit 1 1) [⟨'A', "B"⟩] := by
  have h1 : countLoopCounter (freqInit 1 1) [⟨'A', "B"⟩] = .error "KeyError" :=
    rfl
  have h2 : countLoopConn (freqInit 1 1) [⟨'A', "B"⟩] = .ok (freqInit 1 1) :=
    rfl
  rw [h1, h2]
  intro h
  exact Except.noConfusion h

/-- C10 amended: on datasets in which every range measurement's target
begins with `'L'`, the two counting loops agree (same table or same
error). -/
theorem C10_loops_agree_on_landmark_targets (ms : List Measurement) :
    ∀ f0 : FreqMap, (∀ m ∈ ms, m.target.toList.head? = some 'L') →
    countLoopCounter f0 ms = countLoopConn f0 ms := by
  induction ms with
  | nil => intro f0 _; rfl
  | cons m ms ih =>
    intro f0 h
    have hm := h m (List.mem_cons_self ..)
    have hstep : countStepConn f0 m = countStepCounter f0 m := by
      unfold countStepConn countStepCounter
      cases ht : m.target.toList with
      | nil => rw [ht] at hm; simp at hm
      | cons c cs =>
        rw [ht] at hm
        simp only [List.head?_cons, Option.some.injEq] at hm
        simp [hm]
    unfold countLoopCounter countLoopConn
    rw [hstep]
    cases hsc : countStepCounter f0 m with
    | error e => rfl
    | ok f1 =>
      simp only
      exact ih f1 (fun m' hm' => h m' (List.mem_cons_of_mem _ hm'))

/-- Witness for the amended C10 at a concrete landmark-only dataset. -/
theorem C10_loops_agree_witness :
    countLoopCounter (freqInit 2 2) [⟨'A', "L0"⟩, ⟨'B', "L1"⟩] =
      countLoopConn (freqInit 2 2) [⟨'A', "L0"⟩, ⟨'B', "L1"⟩] :=
  C10_loops_agree_on_landmark_targets [⟨'A', "L0"⟩, ⟨'B', "L1"⟩]
    (freqInit 2 2) (by decide)

/-! Lemmas about the ownership loop -/

theorem owner_mem_cases {rnd : Nat → ℚ} {lm : String} {c : Char} :
    ∀ {k : Nat} {f : FreqMap}, (lm, c) ∈ assignOwnershipFrom rnd k f →
    ∃ k' freq, (lm, freq) ∈ f ∧ ownerChoice (rnd k') freq = some c := by
  intro k f
  induction f generalizing k with
  | nil => intro h; simp [assignOwnershipFrom] at h
  | cons p rest ih =>
    intro h
    rcases p with ⟨lm0, freq0⟩
    unfold assignOwnershipFrom at h
    cases hoc : ownerChoice (rnd k) freq0 with
    | none =>
      rw [hoc] at h
      rcases ih h with ⟨k', freq, hmem, hoc'⟩
      exact ⟨k', freq, List.mem_cons_of_mem _ hmem, hoc'⟩
    | some c0 =>
      rw [hoc] at h
      rcases List.mem_cons.mp h with he | hmem
      · have hlm : lm = lm0 := congrArg Prod.fst he
        have hc : c = c0 := congrArg Prod.snd he
        subst hlm
        subst hc
        exact ⟨k, freq0, List.mem_cons_self .., hoc⟩
      · rcases ih hmem with ⟨k', freq, hmem', hoc'⟩
        exact ⟨k', freq, List.mem_cons_of_mem _ hmem', hoc'⟩

theorem foldl_max_init_le : ∀ (l : List Nat) (a : Nat), a ≤ l.foldl Nat.max a := by
  intro l
  induction l with
  | nil => intro a; exact Nat.le_refl a
  | cons b l ih =>
    intro a
    exact le_trans (Nat.le_max_left a b) (ih (Nat.max a b))

theorem le_foldl_max : ∀ (l : List Nat) (a x : Nat), x ∈ l → x ≤ l.foldl Nat.max a := by
  intro l
  induction l with
  | nil => intro a x hx; simp at hx
  | cons b l ih =>
    intro a x hx
    rcases List.mem_cons.mp hx with rfl | hx
    · exact le_trans (Nat.le_max_right a x) (foldl_max_init_le l (Nat.max a x))
    · exact ih (Nat.max a b) x hx

theorem foldl_max_mem : ∀ (l : List Nat) (a : Nat),
    l.foldl Nat.max a ∈ l ∨ l.foldl Nat.max a = a := by
  intro l
  induction l with
  | nil => intro a; exact Or.inr rfl
  | cons b l ih =>
    intro a
    rw [List.foldl_cons]
    rcases ih (Nat.max a b) with h | h
    · exact Or.inl (List.mem_cons_of_mem _ h)
    · by_cases hab : a ≤ b
      · left
        have hm : Nat.max a b = b := Nat.max_eq_right hab
        rw [h, hm]
        exact List.mem_cons_self ..
      · right
        rw [h]
        exact Nat.max_eq_left (Nat.le_of_not_le hab)

theorem lt_indexOf_ne : ∀ (l : List Nat) (a : Nat) (j : Nat) (hj : j < l.length),
    j < l.indexOf a → l.get ⟨j, hj⟩ ≠ a := by
  intro l
  induction l with
  | nil => intro a j hj _; simp at hj
  | cons b l ih =>
    intro a j hj hlt
    cases j with
    | zero =>
      intro hba
      rw [List.get] at hba
      rw [List.indexOf_cons_eq l hba] at hlt
      exact Nat.not_lt_zero 0 hlt
    | succ j =>
      by_cases hb : b = a
      · rw [List.indexOf_cons_eq l hb] at hlt
        exact absurd hlt (Nat.not_lt_zero _)
      · rw [List.indexOf_cons_ne l hb] at hlt
        have hj' : j < l.length := by simpa using hj
        exact ih a j hj' (Nat.lt_of_succ_lt_succ hlt)

theorem listMax_mem_of_sum_ne_zero {freq : List Nat} (h : freq.sum ≠ 0) :
    listMax freq ∈ freq := by
  rcases foldl_max_mem freq 0 with hm | hm
  · exact hm
  · exfalso
    apply h
    apply List.sum_eq_zero
    intro x hx
    have := le_foldl_max freq 0 x hx
    rw [hm] at this
    omega

theorem isTie_of_sum_eq_zero {freq : List Nat} (h : freq.sum = 0) :
    isTie freq = true := by
  have hall : ∀ x ∈ freq, x = 0 := List.sum_eq_zero_iff.mp h
  unfold isTie
  rw [List.all_eq_true]
  intro x hx
  have hx0 := hall x hx
  have hh : freq.headD 0 = 0 := by
    cases hf : freq with
    | nil => rfl
    | cons a l =>
      have : a = 0 := hall a (by rw [hf]; exact List.mem_cons_self ..)
      rw [List.headD_cons, this]
  show decide (x = freq.headD 0) = true
  subst hx0
  rw [hh]
  decide

/-- C2: a landmark whose frequency vector is all zeros never becomes a key
of the ownership mapping built by `assign_ownership_to_landmarks`. -/
theorem C2_all_zero_excluded (rnd : Nat → ℚ) (fp : String) (f : FreqMap)
    (lines : List String) (owner : List (String × Char)) (out : List String)
    (h : assign_ownership_to_landmarks rnd fp f lines = .ok (owner, out))
    (lm : String) (hz : ∀ freq, (lm, freq) ∈ f → ∀ x ∈ freq, x = 0) :
    lm ∉ owner.map Prod.fst := by
  have howner : owner = assignOwnershipFrom rnd 0 f := by
    unfold assign_ownership_to_landmarks at h
    cases hchk : checkPyfgExtension fp with
    | error e => rw [hchk] at h; simp at h
    | ok u =>
      cases u
      rw [hchk] at h
      simp only [Except.ok.injEq, Prod.mk.injEq] at h
      exact h.1.symm
  subst howner
  intro hmem
  rcases List.mem_map.mp hmem with ⟨⟨lm', c⟩, hpc, he⟩
  have hlm : lm' = lm := he
  subst hlm
  rcases owner_mem_cases hpc with ⟨k', freq, hfm, hoc⟩
  have hsum : freq.sum = 0 := List.sum_eq_zero (hz freq hfm)
  unfold ownerChoice at hoc
  rw [if_pos hsum] at hoc
  exact Option.noConfusion hoc

/-- Witness for C2: `L0`, seen by no robot, gets no owner. -/
theorem C2_all_zero_excluded_witness :
    "L0" ∉ (assignOwnershipFrom (fun _ => (0 : ℚ)) 0
      [("L0", [0, 0]), ("L1", [1, 0])]).map Prod.fst :=
  C2_all_zero_excluded (fun _ => (0 : ℚ)) "x.pyfg"
    [("L0", [0, 0]), ("L1", [1, 0])] [] _ _ (by rfl) "L0"
    (by
      intro freq hf
      rcases List.mem_cons.mp hf with he | hf2
      · have hfr : freq = [0, 0] := congrArg Prod.snd he
        subst hfr
        decide
      · rcases List.mem_cons.mp hf2 with he | h3
        · have hbad : ("L0" : String) = "L1" := congrArg Prod.fst he
          exact absurd hbad (by decide)
        · simp at h3)

/-- C3: when the entries of a nonzero frequency vector are not all equal,
the ownership decision is deterministic — no random draw is consulted — and
picks the first index achieving the maximum count; on a one-entry table the
whole of `assign_ownership_to_landmarks`' loop therefore assigns that
landmark to that robot whatever the random stream. -/
theorem C3_uneven_tie_first_max (freq : List Nat) (hne : isTie freq = false) :
    ∃ i : Fin freq.length,
      (∀ j : Fin freq.length, freq.get j ≤ freq.get i) ∧
      (∀ j : Fin freq.length, (j : Nat) < (i : Nat) → freq.get j < freq.get i) ∧
      (∀ r : ℚ, ownerChoice r freq =
        some (get_robot_char_from_number (i : Nat))) ∧
      (∀ (rnd rnd' : Nat → ℚ) (lm : String),
        assignOwnershipFrom rnd 0 [(lm, freq)] =
          [(lm, get_robot_char_from_number (i : Nat))] ∧
        assignOwnershipFrom rnd 0 [(lm, freq)] =
          assignOwnershipFrom rnd' 0 [(lm, freq)]) := by
  have hsum : freq.sum ≠ 0 := by
    intro h0
    rw [isTie_of_sum_eq_zero h0] at hne
    exact Bool.noConfusion hne
  have hmax_mem : listMax freq ∈ freq := listMax_mem_of_sum_ne_zero hsum
  have hidx : freq.indexOf (listMax freq) < freq.length :=
    List.indexOf_lt_length.mpr hmax_mem
  refine ⟨⟨freq.indexOf (listMax freq), hidx⟩, ?_, ?_, ?_, ?_⟩
  · intro j
    rw [List.indexOf_get hidx]
    exact le_foldl_max freq 0 (freq.get j) (List.get_mem ..)
  · intro j hj
    rw [List.indexOf_get hidx]
    have hne' := lt_indexOf_ne freq (listMax freq) (j : Nat) j.2 hj
    have hje : (⟨(j : Nat), j.2⟩ : Fin freq.length) = j := rfl
    rw [hje] at hne'
    have hle : freq.get j ≤ listMax freq :=
      le_foldl_max freq 0 (freq.get j) (List.get_mem ..)
    omega
  · intro r
    unfold ownerChoice
    rw [if_neg hsum, if_neg (by rw [hne]; exact Bool.noConfusion)]
  · intro rnd rnd' lm
    have h1 : ∀ (g : Nat → ℚ), assignOwnershipFrom g 0 [(lm, freq)] =
        [(lm, get_robot_char_from_number (freq.indexOf (listMax freq)))] := by
      intro g
      unfold assignOwnershipFrom
      have hoc : ownerChoice (g 0) freq =
          some (get_robot_char_from_number (freq.indexOf (listMax freq))) := by
        unfold ownerChoice
        rw [if_neg hsum, if_neg (by rw [hne]; exact Bool.noConfusion)]
      rw [hoc]
      rfl
    exact ⟨h1 rnd, (h1 rnd).trans (h1 rnd').symm⟩

/-- Witness for C3 at the spec's example `[5, 5, 3]`. -/
theorem C3_uneven_tie_first_max_witness :
    isTie [5, 5, 3] = false ∧
    ∃ i : Fin ([5, 5, 3] : List Nat).length,
      (∀ j : Fin ([5, 5, 3] : List Nat).length,
        ([5, 5, 3] : List Nat).get j ≤ ([5, 5, 3] : List Nat).get i) ∧
      (∀ j : Fin ([5, 5, 3] : List Nat).length,
        (j : Nat) < (i : Nat) →
        ([5, 5, 3] : List Nat).get j < ([5, 5, 3] : List Nat).get i) ∧
      (∀ r : ℚ, ownerChoice r [5, 5, 3] =
        some (get_robot_char_from_number (i : Nat))) ∧
      (∀ (rnd rnd' : Nat → ℚ) (lm : String),
        assignOwnershipFrom rnd 0 [(lm, [5, 5, 3])] =
          [(lm, get_robot_char_from_number (i : Nat))] ∧
        assignOwnershipFrom rnd 0 [(lm, [5, 5, 3])] =
          assignOwnershipFrom rnd' 0 [(lm, [5, 5, 3])]) :=
  ⟨by decide, C3_uneven_tie_first_max [5, 5, 3] (by decide)⟩

/-- C4: on a full tie (all counts equal and nonzero), whatever values in
`[0, 1)` the random stream yields, the owner recorded by the ownership loop
of `assign_ownership_to_landmarks` is a robot with index below the vector
length `num_robots`. -/
theorem C4_full_tie_owner_in_range (rnd : Nat → ℚ)
    (hr : ∀ k, 0 ≤ rnd k ∧ rnd k < 1) (f : FreqMap) (n : Nat) (lm : String)
    (c : Char) (hmem : (lm, c) ∈ assignOwnershipFrom rnd 0 f)
    (hall : ∀ freq, (lm, freq) ∈ f →
      freq.sum ≠ 0 ∧ isTie freq = true ∧ freq.length = n) :
    ∃ i : Nat, i < n ∧ c = get_robot_char_from_number i := by
  rcases owner_mem_cases hmem with ⟨k', freq, hfm, hoc⟩
  obtain ⟨hsum, htie, hlen⟩ := hall freq hfm
  unfold ownerChoice at hoc
  rw [if_neg hsum, if_pos (by rw [htie])] at hoc
  refine ⟨(⌊rnd k' * (freq.length : ℚ)⌋).toNat, ?_,
    (Option.some.inj hoc).symm⟩
  have hpos : 0 < freq.length := by
    cases hfq : freq with
    | nil => rw [hfq] at hsum; simp at hsum
    | cons a l => simp
  obtain ⟨h0, h1⟩ := hr k'
  have hmul0 : 0 ≤ rnd k' * (freq.length : ℚ) :=
    mul_nonneg h0 (by positivity)
  have hmul1 : rnd k' * (freq.length : ℚ) < (freq.length : ℚ) := by
    calc rnd k' * (freq.length : ℚ) < 1 * (freq.length : ℚ) :=
          mul_lt_mul_of_pos_right h1 (by exact_mod_cast hpos)
    _ = (freq.length : ℚ) := one_mul _
  have hfl : ⌊rnd k' * (freq.length : ℚ)⌋ < (freq.length : ℤ) := by
    rw [Int.floor_lt]
    exact_mod_cast hmul1
  have hfl0 : 0 ≤ ⌊rnd k' * (freq.length : ℚ)⌋ := Int.floor_nonneg.mpr hmul0
  rw [← hlen]
  omega

/-- Witness for C4: a two-robot full tie `[2, 2]` with the random stream
constantly `0` yields owner `'A'`, a robot index below 2. -/
theorem C4_full_tie_owner_in_range_witness :
    ∃ i : Nat, i < 2 ∧ 'A' = get_robot_char_from_number i := by
  have hoc : ownerChoice ((fun _ => (0 : ℚ)) 0) [2, 2] = some 'A' := by
    unfold ownerChoice
    have hfl : (⌊(0 : ℚ) * ((([2, 2] : List Nat).length : Nat) : ℚ)⌋).toNat = 0 := by
      norm_num
    rw [if_neg (by decide), if_pos (by decide), hfl]
    rfl
  have hmem : ("L0", 'A') ∈
      assignOwnershipFrom (fun _ => (0 : ℚ)) 0 [("L0", [2, 2])] := by
    unfold assignOwnershipFrom
    rw [hoc]
    exact List.mem_cons_self ..
  exact C4_full_tie_owner_in_range (fun _ => (0 : ℚ))
    (fun k => ⟨le_refl 0, by norm_num⟩) [("L0", [2, 2])] 2 "L0" 'A' hmem
    (by
      intro freq hf
      rcases List.mem_cons.mp hf with he | h2
      · have hfr : freq = [2, 2] := congrArg Prod.snd he
        subst hfr
        refine ⟨by decide, by decide, by decide⟩
      · simp at h2)

/-! Totality of the counting loop under the safety precondition -/

theorem countStepConn_total {f0 : FreqMap} {m : Measurement} {n : Nat}
    (hlen : ∀ p ∈ f0, p.2.length = n)
    (hne : m.target.toList ≠ [])
    (hP : m.target.toList.head? = some 'L' →
      m.target ∈ f0.map Prod.fst ∧ get_robot_idx_from_char m.observer < n) :
    ∃ f1, countStepConn f0 m = .ok f1 := by
  unfold countStepConn
  cases ht : m.target.toList with
  | nil => exact absurd ht hne
  | cons c cs =>
    show ∃ f1,
      (if c = 'L' then incrementFor f0 m.target m.observer else Except.ok f0) =
        Except.ok f1
    by_cases hc : c = 'L'
    · rw [if_pos hc]
      have hh : m.target.toList.head? = some 'L' := by rw [ht, hc]; rfl
      obtain ⟨hkmem, hidx⟩ := hP hh
      have hsome := lookupFreq_isSome_iff.mpr hkmem
      obtain ⟨v, hv⟩ := Option.isSome_iff_exists.mp hsome
      have hvn : v.length = n := hlen (m.target, v) (lookupFreq_mem hv)
      have hlt : get_robot_idx_from_char m.observer < v.length := by
        rw [hvn]; exact hidx
      refine ⟨setFreq f0 m.target
        (v.set (get_robot_idx_from_char m.observer)
          (v.get ⟨get_robot_idx_from_char m.observer, hlt⟩ + 1)), ?_⟩
      unfold incrementFor
      rw [hv]
      simp only
      rw [dif_pos hlt]
    · rw [if_neg hc]
      exact ⟨f0, rfl⟩

theorem countLoopConn_total {n : Nat} : ∀ (ms : List Measurement)
    {f0 : FreqMap}, (∀ p ∈ f0, p.2.length = n) →
    (∀ m ∈ ms, m.target.toList ≠ [] ∧
      (m.target.toList.head? = some 'L' →
        m.target ∈ f0.map Prod.fst ∧
        get_robot_idx_from_char m.observer < n)) →
    ∃ f, countLoopConn f0 ms = .ok f := by
  intro ms
  induction ms with
  | nil => intro f0 _ _; exact ⟨f0, rfl⟩
  | cons m ms ih =>
    intro f0 hlen hP
    obtain ⟨hne, hPm⟩ := hP m (List.mem_cons_self ..)
    obtain ⟨f1, hs⟩ := countStepConn_total hlen hne hPm
    have hlen1 : ∀ p ∈ f1, p.2.length = n := by
      rcases countStepConn_ok_cases hs with ⟨_, rfl⟩ | ⟨_, v, hi, hv, rfl⟩
      · exact hlen
      · refine vecLens_setFreq ?_ hlen
        rw [List.length_set]
        exact hlen _ (lookupFreq_mem hv)
    have hkeys := countStepConn_keys hs
    have hP1 : ∀ m' ∈ ms, m'.target.toList ≠ [] ∧
        (m'.target.toList.head? = some 'L' →
          m'.target ∈ f1.map Prod.fst ∧
          get_robot_idx_from_char m'.observer < n) := by
      intro m' hm'
      obtain ⟨hne', hx⟩ := hP m' (List.mem_cons_of_mem m hm')
      exact ⟨hne', fun hh => ⟨by rw [hkeys]; exact (hx hh).1, (hx hh).2⟩⟩
    obtain ⟨f, hf⟩ := ih hlen1 hP1
    refine ⟨f, ?_⟩
    unfold countLoopConn
    rw [hs]
    exact hf

/-- C7: a successful `landmark_counter` run returns a table whose keys are
exactly `L0 … L(num_landmarks-1)` in order, whose vectors all have length
`num_robots` (all-zero at initialization), and whose CSV rendering is one
header line plus one row per landmark; a landmark targeted by no
measurement keeps its all-zero row. -/
theorem C7_table_and_csv_shape (fp : String) (d : FactorGraphData)
    (f : FreqMap) (h : landmark_counter fp d = .ok f) :
    f.map Prod.fst =
      (List.range d.num_landmarks).map (fun i => "L" ++ toString i) ∧
    (∀ p ∈ freqInit d.num_landmarks d.num_robots,
      p.2 = List.replicate d.num_robots 0) ∧
    (∀ p ∈ f, p.2.length = d.num_robots) ∧
    append_frequency_to_csv f d.num_robots =
      csvHeader d.num_robots :: f.map (fun p => csvRow p.1 p.2) ∧
    (append_frequency_to_csv f d.num_robots).length = d.num_landmarks + 1 ∧
    (∀ p ∈ f, (∀ m ∈ d.range_measurements, m.target ≠ p.1) →
      p.2 = List.replicate d.num_robots 0) := by
  have h' : countLoopConn (freqInit d.num_landmarks d.num_robots)
      d.range_measurements = .ok f := by
    unfold landmark_counter at h
    cases hchk : checkPyfgExtension fp with
    | error e => rw [hchk] at h; simp at h
    | ok u => cases u; rw [hchk] at h; exact h
  have hkeys : f.map Prod.fst =
      (List.range d.num_landmarks).map (fun i => "L" ++ toString i) :=
    (countLoopConn_keys h').trans (freqInit_keys ..)
  have hlens : ∀ p ∈ f, p.2.length = d.num_robots :=
    countLoopConn_vecLens (freqInit_lens _ _) h'
  have hflen : f.length = d.num_landmarks := by
    have := congrArg List.length hkeys
    simpa using this
  refine ⟨hkeys, freqInit_vals _ _, hlens, rfl, ?_, ?_⟩
  · unfold append_frequency_to_csv
    simp [hflen]
  · intro p hp hnotarget
    have hcoh : Coherent f :=
      countLoopConn_coherent (coherent_freqInit _ _) h'
    have hlook : lookupFreq f p.1 = some p.2 := mem_lookupFreq hcoh hp
    have hsome : (lookupFreq f p.1).isSome := by rw [hlook]; rfl
    have hmem0 : p.1 ∈ (freqInit d.num_landmarks d.num_robots).map Prod.fst := by
      have := lookupFreq_isSome_iff.mp hsome
      rw [countLoopConn_keys h'] at this
      exact this
    obtain ⟨v0, hv0⟩ :=
      Option.isSome_iff_exists.mp (lookupFreq_isSome_iff.mpr hmem0)
    have hv0val : v0 = List.replicate d.num_robots 0 :=
      freqInit_vals _ _ _ (lookupFreq_mem hv0)
    have hsum := countLoopConn_sum (freqInit_keysStartL _ _) h' p.1 v0 p.2
      hv0 hlook
    have hcount : d.range_measurements.countP (fun m => m.target = p.1) = 0 := by
      rw [List.countP_eq_zero]
      intro m hm
      simp only [decide_eq_true_eq]
      exact hnotarget m hm
    rw [List.eq_replicate_iff]
    refine ⟨hlens p hp, ?_⟩
    intro b hb
    have hz : p.2.sum = 0 := by
      rw [hsum, hcount, hv0val]
      simp
    exact List.sum_eq_zero_iff.mp hz b hb

/-- Witness for C7 at a concrete dataset with an unobserved landmark. -/
theorem C7_table_and_csv_shape_witness :
    ([("L0", [1, 0]), ("L1", [0, 0])] : FreqMap).map Prod.fst =
      (List.range 2).map (fun i => "L" ++ toString i) ∧
    (append_frequency_to_csv [("L0", [1, 0]), ("L1", [0, 0])] 2).length =
      2 + 1 := by
  have h := C7_table_and_csv_shape "d.pyfg" ⟨2, 2, [⟨'A', "L0"⟩]⟩
    [("L0", [1, 0]), ("L1", [0, 0])] (by rfl)
  exact ⟨h.1, h.2.2.2.2.1⟩

/-- Ending in `.pyfg` means being some string followed by `.pyfg`. -/
theorem endswith_pyfg_iff (fp : String) :
    endswith fp ".pyfg" = true ↔ ∃ s : String, fp = s ++ ".pyfg" := by
  unfold endswith
  rw [List.isSuffixOf_iff_suffix]
  constructor
  · rintro ⟨t, ht⟩
    refine ⟨⟨t⟩, ?_⟩
    apply String.ext
    rw [String.data_append]
    exact ht.symm
  · rintro ⟨s, rfl⟩
    exact ⟨s.toList, (String.data_append s ".pyfg").symm⟩

theorem countLoopConn_error_ne_critical {ms : List Measurement}
    {f0 : FreqMap} (h : countLoopConn f0 ms = .error criticalMsg) : False := by
  rcases countLoopConn_error_msgs h with he | he | he <;>
    exact absurd he (by decide)

/-- C8: each of the three functions fails with the logged critical message
exactly when the filepath does not end in `.pyfg`; on every `.pyfg`
filepath the validation passes. -/
theorem C8_extension_validation (fp : String) (d : FactorGraphData)
    (rnd : Nat → ℚ) (f : FreqMap) (ow : List (String × Char))
    (lines lines2 : List String) :
    (checkPyfgExtension fp = .error criticalMsg ↔
      ¬ ∃ s : String, fp = s ++ ".pyfg") ∧
    ((∃ s : String, fp = s ++ ".pyfg") → checkPyfgExtension fp = .ok ()) ∧
    (landmark_counter fp d = .error criticalMsg ↔
      ¬ ∃ s : String, fp = s ++ ".pyfg") ∧
    (assign_ownership_to_landmarks rnd fp f lines = .error criticalMsg ↔
      ¬ ∃ s : String, fp = s ++ ".pyfg") ∧
    (reindex_landmarks fp ow lines2 = .error criticalMsg ↔
      ¬ ∃ s : String, fp = s ++ ".pyfg") := by
  cases hE : endswith fp ".pyfg" with
  | true =>
    have hex : ∃ s : String, fp = s ++ ".pyfg" :=
      (endswith_pyfg_iff fp).mp hE
    have hchk : checkPyfgExtension fp = .ok () := by
      unfold checkPyfgExtension
      rw [if_pos hE]
    refine ⟨?_, fun _ => hchk, ?_, ?_, ?_⟩
    · constructor
      · intro hc
        rw [hchk] at hc
        exact absurd hc (by simp)
      · intro hn
        exact absurd hex hn
    · constructor
      · intro hc
        unfold landmark_counter at hc
        rw [hchk] at hc
        simp only at hc
        exact absurd (countLoopConn_error_ne_critical hc) not_false
      · intro hn
        exact absurd hex hn
    · constructor
      · intro hc
        unfold assign_ownership_to_landmarks at hc
        rw [hchk] at hc
        simp at hc
      · intro hn
        exact absurd hex hn
    · constructor
      · intro hc
        unfold reindex_landmarks at hc
        rw [hchk] at hc
        simp at hc
      · intro hn
        exact absurd hex hn
  | false =>
    have hnex : ¬ ∃ s : String, fp = s ++ ".pyfg" := by
      intro hex
      rw [(endswith_pyfg_iff fp).mpr hex] at hE
      exact Bool.noConfusion hE
    have hchk : checkPyfgExtension fp = .error criticalMsg := by
      unfold checkPyfgExtension
      rw [if_neg (by rw [hE]; exact Bool.noConfusion)]
    refine ⟨⟨fun _ => hnex, fun _ => hchk⟩,
      fun hex => absurd hex hnex, ?_, ?_, ?_⟩
    · constructor
      · intro _; exact hnex
      · intro _
        unfold landmark_counter
        rw [hchk]
    · constructor
      · intro _; exact hnex
      · intro _
        unfold assign_ownership_to_landmarks
        rw [hchk]
    · constructor
      · intro _; exact hnex
      · intro _
        unfold reindex_landmarks
        rw [hchk]

/-- Witness for C8: the validation passes on a `.pyfg` path and
`landmark_counter` fails with the critical message on a `.txt` path. -/
theorem C8_extension_validation_witness :
    checkPyfgExtension "data.pyfg" = .ok () ∧
    landmark_counter "data.txt" ⟨1, 1, []⟩ = .error criticalMsg := by
  constructor
  · exact (C8_extension_validation "data.pyfg" ⟨1, 1, []⟩ (fun _ => 0)
      [] [] [] []).2.1 ⟨"data", rfl⟩
  · refine ((C8_extension_validation "data.txt" ⟨1, 1, []⟩ (fun _ => 0)
      [] [] [] []).2.2.1).mpr ?_
    rintro ⟨s, hs⟩
    have he : endswith "data.txt" ".pyfg" = true :=
      (endswith_pyfg_iff "data.txt").mpr ⟨s, hs⟩
    exact absurd he (by decide)

/-- C9: when every landmark-targeted measurement of a parsed dataset
(identifiers are nonempty tokens) names a landmark among
`L0 … L(num_landmarks-1)` and an observer with robot index below
`num_robots`, the counting loop of `landmark_counter` succeeds; a dataset
violating the precondition (here targeting `L5` with a single landmark)
makes the loop raise an error. -/
theorem C9_loop_safety :
    (∀ d : FactorGraphData,
      (∀ m ∈ d.range_measurements, m.target.toList ≠ []) →
      (∀ m ∈ d.range_measurements, m.target.toList.head? = some 'L' →
        m.target ∈ (List.range d.num_landmarks).map (fun i => "L" ++ toString i) ∧
        get_robot_idx_from_char m.observer < d.num_robots) →
      ∃ f, countLoopConn (freqInit d.num_landmarks d.num_robots)
        d.range_measurements = .ok f) ∧
    countLoopConn (freqInit 1 1) [⟨'A', "L5"⟩] = .error "KeyError" ∧
    ¬ (∀ m ∈ ([⟨'A', "L5"⟩] : List Measurement),
        m.target.toList.head? = some 'L' →
        m.target ∈ (List.range 1).map (fun i => "L" ++ toString i) ∧
        get_robot_idx_from_char m.observer < 1) := by
  refine ⟨?_, by rfl, by decide⟩
  intro d hne hP
  refine countLoopConn_total d.range_measurements (freqInit_lens _ _) ?_
  intro m hm
  refine ⟨hne m hm, fun hh => ?_⟩
  obtain ⟨hmem, hidx⟩ := hP m hm hh
  rw [freqInit_keys]
  exact ⟨hmem, hidx⟩

/-- Witness for C9's universal part at a concrete wellformed dataset. -/
theorem C9_loop_safety_witness :
    ∃ f, countLoopConn (freqInit 1 1) [⟨'A', "L0"⟩] = .ok f :=
  C9_loop_safety.1 ⟨1, 1, [⟨'A', "L0"⟩]⟩ (by decide) (by decide)

end LandmarkConnectivity
